import Mathlib

/-!
Verification of the pubchem-crawler mirror/extract tool
(`src/pubchem-crawler/crawl.py`) against its specification.

The embedding models:
* filesystem paths as lists of components (`RPath`), with `pathName`
  (Python `Path(...).name`) and `pathParent` (`Path(...).parent`);
* `Path.suffix` / `Path.with_suffix("")` as `pySuffix` / `pyStem`,
  following the CPython implementation (last dot of the final component,
  provided it is neither the first nor the last character);
* the local filesystem as an association list from paths to contents
  (`Store α`), with exclusive-create (`open(p, "xb")`) expressed as a
  presence test plus a write;
* `PubchemLoader.get_names`, `__diff`, `__download_file` and
  `full_download`, the latter with an explicit fuel bound for the
  self-recursive retry and an `Oracle` supplying the remote listing,
  remote bytes, and the transport failures of each attempt;
* `Extractor.__gunzip_content` and `Extractor.extract`, with archive
  contents abstracted as well-formed / truncated and the handler as a
  function returning its outcome (return, raise `EOFError`, raise other).
-/

namespace Crawl

/-- A filesystem or FTP path, as its list of components. -/
abbrev RPath := List String

/-- Python `Path(p).name`: the final path component. -/
def pathName (p : RPath) : String := p.getLastD ""

/-- Python `Path(p).parent`: the path without its final component. -/
def pathParent (p : RPath) : RPath := p.dropLast

/-- Index of the last dot of a list of characters, if any. -/
def lastDotIdx (cs : List Char) : Option Nat :=
  ((List.range cs.length).filter (fun i => cs.getD i ' ' == '.')).getLast?

/-- CPython `pathlib` suffix of a file name: the part of the name from the
last dot, provided that dot is neither the first nor the last character;
empty otherwise. -/
def pySuffixL (cs : List Char) : List Char :=
  match lastDotIdx cs with
  | none => []
  | some i => if 0 < i ∧ i + 1 < cs.length then cs.drop i else []

/-- Python `Path(n).suffix` on a file name. -/
def pySuffix (n : String) : String := String.mk (pySuffixL n.data)

/-- Python `Path(n).with_suffix("").name`: the name with its suffix removed. -/
def pyStem (n : String) : String :=
  String.mk (n.data.take (n.data.length - (pySuffixL n.data).length))

/-- Python `p.with_suffix("")` on a path: strip the suffix of the final
component. -/
def withSuffixEmpty (p : RPath) : RPath := p.dropLast ++ [pyStem (pathName p)]

/-- `fnmatch`-style match of the glob pattern `*.{ext}` against a file
name: the name ends with `"." ++ ext`. -/
def globMatch (ext : String) (n : String) : Bool :=
  let pat := '.' :: ext.data
  n.data.drop (n.data.length - pat.length) == pat

section StoreDefs

variable {α : Type}

/-- A directory tree, as an association list from full paths to file
contents.  Writes erase any previous entry for the path, so keys stay
unique when starting from a duplicate-free store; lookups take the first
entry either way. -/
abbrev Store (α : Type) := List (RPath × α)

/-- Content of the file at `p`, if present (Python: reading `p`). -/
def stGet (fs : Store α) (p : RPath) : Option α :=
  (fs.find? (fun e => e.1 == p)).map (fun e => e.2)

/-- Existence test for `p` (Python: the check made by `open(p, "xb")`). -/
def stHas (fs : Store α) (p : RPath) : Bool := (stGet fs p).isSome

/-- Python `p.unlink()`: remove every entry at `p`. -/
def stErase (fs : Store α) (p : RPath) : Store α :=
  fs.filter (fun e => e.1 != p)

/-- Write content `c` to `p` (creating or truncating the file). -/
def stWrite (fs : Store α) (p : RPath) (c : α) : Store α :=
  (p, c) :: stErase fs p

/-- All paths present in the store. -/
def stKeys (fs : Store α) : List RPath := fs.map (fun e => e.1)

end StoreDefs

/-! ## Mirror engine (`PubchemLoader`) -/

/-- File contents are abstracted as natural numbers. -/
abbrev Bytes := Nat

/-- The local filesystem seen by the loader. -/
abbrev FS := Store Bytes

/-- `PubchemLoader.sup_extensions = [".md5", ".gz"]` (order matters:
the comment in the source says "Order make sense"). -/
def sup_extensions : List String := [".md5", ".gz"]

/-- The loader state: `self.target_dir`. -/
structure Loader where
  target_dir : RPath
deriving DecidableEq

/-- `PubchemLoader.get_names`: the set of final path components of a
listing, as a duplicate-free list. -/
def get_names (dir : List RPath) : List String :=
  (dir.map pathName).dedup

/-- The `diff_names = sources - targets` part of `PubchemLoader.__diff`:
local inventory is the glob `*.{ext}` over `target_dir / source_dir`,
remote inventory is the listing's names filtered by `Path(x).suffix ==
".{ext}"`, and the result is their set difference (`ext` is passed
without its dot, as in `ext_[1:]`). -/
def diffNames (ldr : Loader) (fs : FS) (source_dir : RPath)
    (source_file_list : List RPath) (ext : String) : List String :=
  let pth := ldr.target_dir ++ source_dir
  let targets := get_names ((stKeys fs).filter
    (fun p => p.dropLast == pth && globMatch ext (pathName p)))
  let sources := (get_names source_file_list).filter
    (fun n => pySuffix n == "." ++ ext)
  sources.filter (fun n => !(targets.contains n))

/-- The generator part of `PubchemLoader.__diff`: when `diff_names` is
non-empty it reads `source_file_list[0]` (an `IndexError`, modelled as
`none`, if the listing is empty) and yields `ftp_dir / name` for each
missing name. -/
def diffGen (ldr : Loader) (fs : FS) (source_dir : RPath)
    (source_file_list : List RPath) (ext : String) : Option (List RPath) :=
  let d := diffNames ldr fs source_dir source_file_list ext
  if d.isEmpty then some []
  else
    match source_file_list with
    | [] => none
    | f :: _ => some (d.map (fun n => pathParent f ++ [n]))

/-! ## The per-class diff (`PubchemLoader.__diff`) -/

/-- Local inventory of one extension class: the base names produced by
`get_names(pth.glob(f"*.{ext_}"))`. -/
def localNames (ldr : Loader) (fs : FS) (source_dir : RPath) (ext : String) :
    List String :=
  get_names ((stKeys fs).filter
    (fun p => p.dropLast == ldr.target_dir ++ source_dir
      && globMatch ext (pathName p)))

/-- Remote inventory of one extension class: the listing's base names
filtered by `Path(x).suffix == ".{ext}"`. -/
def remoteNames (source_file_list : List RPath) (ext : String) : List String :=
  (get_names source_file_list).filter (fun n => pySuffix n == "." ++ ext)

/-- `PubchemLoader.__checksum`: the body evaluates
`target_file.with_suffix(".gz.md5").is_file()` but discards the result
and returns `True` unconditionally (the "todo: create checksum
functionality" stub). -/
def checksum (_fs : FS) (_target_file : RPath) : Bool := true

/-- Result of one `ftp_.get` call: either the full remote bytes, or an
error raised after some bytes were already written to the (already
created) destination file. -/
inductive GetRes
  | ok (content : Bytes)
  | fail (e : Nat) (written : Bytes)
deriving DecidableEq

/-- `DownloadOutcome` of one `__download_file` call that returns. -/
inductive Outcome
  | ignored
  | fetched
  | refreshedSidecar
  | skippedAlreadyValid
deriving DecidableEq

/-- `PubchemLoader.__download_file`.  `get` is the behaviour of
`ftp_.get` on this attempt; errors it raises are propagated in the
second component while the first component records the filesystem
including any partially written destination (Python `open(p, "xb")`
creates the file before `ftp_.get` runs).  The branches mirror the
source: unsupported suffix returns; a fresh destination is fetched with
exclusive create; on `FileExistsError` a `.md5` destination is unlinked
and the function recurses (inlined here: the destination is now absent,
so the recursive call fetches); otherwise, since `checksum` is the
constant-true stub, the `not self.__checksum(pth)` re-download branch is
unreachable and the file is reported as already downloaded. -/
def download_file (get : RPath → GetRes) (ldr : Loader) (fs : FS)
    (filename : RPath) : FS × Except Nat Outcome :=
  let pth := ldr.target_dir ++ filename
  let sfx := pySuffix (pathName pth)
  if !(sup_extensions.contains sfx) then (fs, .ok .ignored)
  else if !(stHas fs pth) then
    match get filename with
    | .ok c => (stWrite fs pth c, .ok .fetched)
    | .fail e w => (stWrite fs pth w, .error e)
  else if sfx == ".md5" then
    let fs1 := stErase fs pth
    match get filename with
    | .ok c => (stWrite fs1 pth c, .ok .refreshedSidecar)
    | .fail e w => (stWrite fs1 pth w, .error e)
  else if checksum fs pth then (fs, .ok .skippedAlreadyValid)
  else (fs, .ok .skippedAlreadyValid)

/-- Observable events of a `full_download` run. -/
inductive Ev
  | listed (ext : String)
  | info (p : RPath)
  | dl (p : RPath) (o : Outcome)
  | warn (e : Nat)
  | slept (secs : Nat)
  | retryNote
deriving DecidableEq

/-- Errors surfacing out of `full_download`: a raised Python exception,
or exhaustion of the fuel bounding the self-recursive retry. -/
inductive SErr
  | raised (e : Nat)
  | fuelOut
deriving DecidableEq

/-- The environment of a run: the (static) remote listing, and per
attempt (number of `full_download` invocations so far) the behaviour of
`ftp_.list` for each extension class and of `ftp_.get` for each file. -/
structure Oracle where
  listing : List RPath
  listErr : Nat → String → Option Nat
  fetchRes : Nat → RPath → GetRes

/-- An oracle whose transport never fails. -/
def cleanOracle (listing : List RPath) (content : RPath → Bytes) : Oracle :=
  { listing := listing
    listErr := fun _ _ => none
    fetchRes := fun _ f => .ok (content f) }

/-- Result of a (possibly restarted) sync pass. -/
abbrev Res := Except SErr (FS × List Ev)

/-- The `for remote_file in self.__diff(...)` loop body of
`full_download`, over the remaining missing files of one class.  Each
iteration logs "start download" and calls `__download_file` inside
`try`; the bare `except (ftplib.error_temp, EOFError, BaseException)`
catches every exception from the download step, logs a warning, sleeps 5
seconds, logs "retry..." and re-invokes `self.full_download()`
(`restart`); when that recursive pass returns the loop resumes with the
remaining (stale) targets, and an exception escaping the recursive pass
propagates. -/
def runTargets (restart : FS → Res) (get : RPath → GetRes) (ldr : Loader) :
    List RPath → FS → Res
  | [], fs => .ok (fs, [])
  | t :: ts, fs =>
    match download_file get ldr fs t with
    | (fs1, .ok o) =>
      match runTargets restart get ldr ts fs1 with
      | .error se => .error se
      | .ok (fs2, tr) => .ok (fs2, .info t :: .dl t o :: tr)
    | (fs1, .error e) =>
      match restart fs1 with
      | .error se => .error se
      | .ok (fs2, trR) =>
        match runTargets restart get ldr ts fs2 with
        | .error se => .error se
        | .ok (fs3, tr) =>
          .ok (fs3, .info t :: .warn e :: .slept 5 :: .retryNote :: (trR ++ tr))

/-- The `for ext_ in self.sup_extensions` loop of `full_download`: for
each class, call `ftp_.list(source_dir)` (whose failure propagates — it
is evaluated outside the `try`), build the class diff, and run the
download loop.  An `IndexError` from `__diff` (provably unreachable, see
`diffGen_eq`) is modelled as a raised error `0`. -/
def runClasses (restart : FS → Res) (listE : String → Option Nat)
    (listing : List RPath) (get : RPath → GetRes) (ldr : Loader)
    (source_dir : RPath) : List String → FS → Res
  | [], fs => .ok (fs, [])
  | ext :: exts, fs =>
    let e' := ext.drop 1
    match listE e' with
    | some e => .error (.raised e)
    | none =>
      match diffGen ldr fs source_dir listing e' with
      | none => .error (.raised 0)
      | some targets =>
        match runTargets restart get ldr targets fs with
        | .error se => .error se
        | .ok (fs1, tr1) =>
          match runClasses restart listE listing get ldr source_dir exts fs1 with
          | .error se => .error se
          | .ok (fs2, tr2) => .ok (fs2, (Ev.listed e' :: tr1) ++ tr2)

/-- `PubchemLoader.full_download`, with the unbounded self-recursive
retry bounded by `fuel` (each retry decrements it; `fuel = 0` is
reported as `SErr.fuelOut`) and `attempt` counting invocations so the
oracle can make later attempts behave differently. -/
def full_download : Nat → Nat → Oracle → Loader → RPath → FS → Res
  | 0, _, _, _, _, _ => .error .fuelOut
  | fuel + 1, attempt, orc, ldr, sd, fs =>
    runClasses (full_download fuel (attempt + 1) orc ldr sd)
      (orc.listErr attempt) orc.listing (orc.fetchRes attempt) ldr sd
      sup_extensions fs

/-! ## Extraction pipeline (`Extractor`) -/

/-- Content of a file under the extraction root: a well-formed gzip
archive holding `payload`, a truncated gzip stream (reading it raises
`EOFError`), or a plain (non-gzip) file of some bytes. -/
inductive EC
  | gzGood (payload : Bytes)
  | gzTrunc
  | plain (b : Bytes)
deriving DecidableEq

/-- The filesystem seen by the extractor. -/
abbrev EFS := Store EC

/-- Errors raised by reading a gzip stream: `EOFError` for a truncated
stream, or another exception (`BadGzipFile`, `FileNotFoundError`, ...)
for anything that is not a readable gzip file. -/
inductive GzErr
  | eof
  | other
deriving DecidableEq

/-- `Extractor.__gunzip_content`: `open(target_file, "wb")` creates (or
truncates) the sibling with the suffix stripped before any read happens,
then `src.read()` either yields the payload, which is written to the
sibling, or raises, leaving the sibling empty. -/
def gunzip_content (fs : EFS) (file : RPath) : EFS × Except GzErr RPath :=
  let target := withSuffixEmpty file
  match stGet fs file with
  | some (.gzGood n) => (stWrite fs target (.plain n), .ok target)
  | some .gzTrunc => (stWrite fs target (.plain 0), .error .eof)
  | some (.plain _) => (stWrite fs target (.plain 0), .error .other)
  | none => (stWrite fs target (.plain 0), .error .other)

/-- Behaviour of the injected handler on one decompressed file: return
normally, raise `EOFError`, or raise some other exception. -/
inductive HRes
  | ok
  | eof
  | other
deriving DecidableEq

/-- Observable events of an `extract` run. -/
inductive XEv
  | handled (p : RPath)
  | logged (p : RPath)
deriving DecidableEq

/-- One iteration of the inner loop of `Extractor.extract` on one walked
file: skip non-`.gz` files; otherwise decompress, invoke the handler and
unlink the sibling, all inside `try ... except EOFError` — so an
`EOFError` from the gzip read or from the handler is logged (naming the
archive) and the walk continues, while any other exception propagates
and aborts the walk (`Except.error ()`).  The sibling is unlinked only
when the handler returns normally. -/
def extractStep (h : RPath → HRes) (fs : EFS) (file : RPath) :
    Except Unit (EFS × List XEv) :=
  if pySuffix (pathName file) == ".gz" then
    match gunzip_content fs file with
    | (fs1, .error .eof) => .ok (fs1, [.logged file])
    | (_, .error .other) => .error ()
    | (fs1, .ok extracted) =>
      match h extracted with
      | .ok => .ok (stErase fs1 extracted, [.handled extracted])
      | .eof => .ok (fs1, [.handled extracted, .logged file])
      | .other => .error ()
  else .ok (fs, [])

/-- `Extractor.extract`: fold `extractStep` over the files produced by
the `os.walk` of the extraction root. -/
def extract (h : RPath → HRes) : List RPath → EFS → Except Unit (EFS × List XEv)
  | [], fs => .ok (fs, [])
  | f :: files, fs =>
    match extractStep h fs f with
    | .error () => .error ()
    | .ok (fs1, evs) =>
      match extract h files fs1 with
      | .error () => .error ()
      | .ok (fs2, evs2) => .ok (fs2, evs ++ evs2)


/-! ## Basic lemmas about names, suffixes and stores -/

theorem pathName_concat (d : RPath) (n : String) : pathName (d ++ [n]) = n := by
  simp [pathName, List.getLastD_concat]

theorem path_decomp {p : RPath} (h : p ≠ []) : p.dropLast ++ [pathName p] = p := by
  have h1 : pathName p = p.getLast h := by
    simp [pathName, List.getLastD_eq_getLast?, List.getLast?_eq_getLast p h]
  rw [h1]
  exact List.dropLast_concat_getLast h

theorem lastDotIdx_lt {cs : List Char} {i : Nat} (h : lastDotIdx cs = some i) :
    i < cs.length := by
  have hm := List.mem_of_getLast?_eq_some h
  have hr : i ∈ List.range cs.length := List.mem_of_mem_filter hm
  exact List.mem_range.mp hr

theorem pySuffixL_eq_drop {cs sfx : List Char} (h : pySuffixL cs = sfx)
    (hne : sfx ≠ []) : ∃ i, i < cs.length ∧ cs.drop i = sfx ∧
      cs.length - sfx.length = i := by
  cases hidx : lastDotIdx cs with
  | none => simp only [pySuffixL, hidx] at h; exact absurd h.symm hne
  | some i =>
    simp only [pySuffixL, hidx] at h
    by_cases hc : 0 < i ∧ i + 1 < cs.length
    · rw [if_pos hc] at h
      refine ⟨i, lastDotIdx_lt hidx, h, ?_⟩
      have hlen : sfx.length = cs.length - i := by
        rw [← h, List.length_drop]
      have := lastDotIdx_lt hidx
      omega
    · rw [if_neg hc] at h; exact absurd h.symm hne

theorem globMatch_of_pySuffix {n ext : String} (h : pySuffix n = "." ++ ext) :
    globMatch ext n = true := by
  have hdata : pySuffixL n.data = '.' :: ext.data := by
    have := congrArg String.data h
    simpa [pySuffix, String.data_append] using this
  obtain ⟨i, hi, hdrop, hsub⟩ :=
    pySuffixL_eq_drop hdata (by simp)
  have : n.data.length - ('.' :: ext.data).length = i := by
    simpa using hsub
  simp only [globMatch, this, hdrop]
  exact beq_self_eq_true _

theorem mem_get_names {dir : List RPath} {n : String} :
    n ∈ get_names dir ↔ ∃ p ∈ dir, pathName p = n := by
  simp [get_names, List.mem_dedup]

theorem diffNames_eq_filter (ldr : Loader) (fs : FS) (sd : RPath)
    (listing : List RPath) (ext : String) :
    diffNames ldr fs sd listing ext =
      (remoteNames listing ext).filter
        (fun n => !((localNames ldr fs sd ext).contains n)) := rfl

theorem diffNames_nil_of_listing_nil (ldr : Loader) (fs : FS) (sd : RPath)
    (ext : String) : diffNames ldr fs sd [] ext = [] := rfl

theorem listing_ne_nil_of_diffNames_ne_nil {ldr : Loader} {fs : FS} {sd : RPath}
    {listing : List RPath} {ext : String}
    (h : diffNames ldr fs sd listing ext ≠ []) : listing ≠ [] := by
  intro hl
  subst hl
  exact h (diffNames_nil_of_listing_nil ldr fs sd ext)

theorem mem_localNames {ldr : Loader} {fs : FS} {sd : RPath} {ext n} :
    n ∈ localNames ldr fs sd ext ↔
      ∃ p ∈ stKeys fs, p.dropLast = ldr.target_dir ++ sd ∧
        globMatch ext (pathName p) = true ∧ pathName p = n := by
  simp only [localNames, mem_get_names, List.mem_filter, Bool.and_eq_true,
    beq_iff_eq]
  constructor
  · rintro ⟨p, ⟨hp, hd, hg⟩, hn⟩
    exact ⟨p, hp, hd, hg, hn⟩
  · rintro ⟨p, hp, hd, hg, hn⟩
    exact ⟨p, ⟨hp, hd, hg⟩, hn⟩

theorem localNames_mono {ldr : Loader} {fs : FS} {extra : FS} {sd : RPath}
    {ext n} (h : n ∈ localNames ldr fs sd ext) :
    n ∈ localNames ldr (fs ++ extra) sd ext := by
  rcases mem_localNames.mp h with ⟨p, hp, hd, hg, hn⟩
  refine mem_localNames.mpr ⟨p, ?_, hd, hg, hn⟩
  simp only [stKeys, List.map_append, List.mem_append]
  exact Or.inl hp

theorem diffGen_eq (ldr : Loader) (fs : FS) (sd : RPath)
    (listing : List RPath) (ext : String) :
    diffGen ldr fs sd listing ext =
      some ((diffNames ldr fs sd listing ext).map
        (fun n => pathParent (listing.headD []) ++ [n])) := by
  by_cases hD : diffNames ldr fs sd listing ext = []
  · simp [diffGen, hD]
  · have hl : listing ≠ [] := listing_ne_nil_of_diffNames_ne_nil hD
    cases listing with
    | nil => exact absurd rfl hl
    | cons f rest =>
      simp [diffGen, List.isEmpty_iff, hD]

/-! ## Association-list store lemmas -/

section StoreLemmas

variable {α : Type} {fs : Store α} {p q : RPath} {c : α}

theorem stGet_cons {e : RPath × α} :
    stGet (e :: fs) q = if e.1 == q then some e.2 else stGet fs q := by
  cases hb : e.1 == q <;> simp [stGet, List.find?_cons, hb]

theorem stGet_erase_self : stGet (stErase fs p) p = none := by
  induction fs with
  | nil => rfl
  | cons e fs ih =>
    by_cases h : e.1 = p
    · simpa [stErase, List.filter_cons, h] using ih
    · have hb : (e.1 != p) = true := by simpa using h
      simp only [stErase] at ih ⊢
      rw [List.filter_cons, if_pos hb, stGet_cons, if_neg (by simpa using h)]
      exact ih

theorem stGet_erase_ne (h : q ≠ p) : stGet (stErase fs p) q = stGet fs q := by
  induction fs with
  | nil => rfl
  | cons e fs ih =>
    by_cases he : e.1 = p
    · rw [stErase, List.filter_cons, if_neg (by simpa using he)]
      rw [stGet_cons, if_neg (by simp [he, Ne.symm h])]
      exact ih
    · rw [stErase, List.filter_cons, if_pos (by simpa using he)]
      rw [stGet_cons, stGet_cons]
      exact if_congr Iff.rfl rfl ih

theorem stGet_write_self : stGet (stWrite fs p c) p = some c := by
  rw [stWrite, stGet_cons, if_pos (by simp)]

theorem stGet_write_ne (h : q ≠ p) : stGet (stWrite fs p c) q = stGet fs q := by
  rw [stWrite, stGet_cons, if_neg (by simpa using Ne.symm h)]
  exact stGet_erase_ne h

theorem stHas_write_self : stHas (stWrite fs p c) p = true := by
  simp [stHas, stGet_write_self]

theorem stHas_write (r : RPath) :
    stHas (stWrite fs p c) r = (p == r || stHas fs r) := by
  by_cases h : r = p
  · subst h; simp [stHas_write_self]
  · simp [stHas, stGet_write_ne h, beq_iff_eq, Ne.symm h]

theorem stHas_mono_write (h : stHas fs q = true) :
    stHas (stWrite fs p c) q = true := by
  rw [stHas_write]
  simp [h]

end StoreLemmas

/-! ## Claim theorems -/

/-- C10: the per-class diff is total on every remote listing, including
the empty one.  `__diff` reads `source_file_list[0]` only when the
computed missing-set is non-empty — which forces the listing to be
non-empty — and the generator yields exactly the parent of the first
listed entry joined with each missing base name; an empty listing or an
empty missing-set yields no targets and no `IndexError`. -/
theorem diff_total_and_shape (ldr : Loader) (fs : FS) (sd : RPath)
    (listing : List RPath) (ext : String) :
    diffGen ldr fs sd listing ext =
      some ((diffNames ldr fs sd listing ext).map
        (fun n => pathParent (listing.headD []) ++ [n])) ∧
    (diffNames ldr fs sd listing ext ≠ [] → listing ≠ []) :=
  ⟨diffGen_eq ldr fs sd listing ext,
    fun h => listing_ne_nil_of_diffNames_ne_nil h⟩

/-- C1: for every remote inventory `R` (the listing's base names with
suffix `.ext`, as computed by `__diff`) and local inventory `L` (the
base names matching the glob `*.{ext}` under the class directory), the
missing-set computed by `__diff` is exactly `R − L`; and re-running the
diff after materialising every missing name in the class directory (so
the local inventory becomes `L ∪ missing`) yields an empty missing-set. -/
theorem diff_missing_set_eq_sdiff (ldr : Loader) (fs : FS) (sd : RPath)
    (listing : List RPath) (ext : String) (c : Bytes) :
    (∀ n, n ∈ diffNames ldr fs sd listing ext ↔
      (n ∈ remoteNames listing ext ∧ n ∉ localNames ldr fs sd ext)) ∧
    diffNames ldr
      (fs ++ (diffNames ldr fs sd listing ext).map
        (fun n => (ldr.target_dir ++ sd ++ [n], c)))
      sd listing ext = [] := by
  have hmem : ∀ n, n ∈ diffNames ldr fs sd listing ext ↔
      (n ∈ remoteNames listing ext ∧ n ∉ localNames ldr fs sd ext) := by
    intro n
    rw [diffNames_eq_filter]
    simp [List.mem_filter]
  refine ⟨hmem, ?_⟩
  rw [diffNames_eq_filter, List.filter_eq_nil_iff]
  intro n hn
  simp only [Bool.not_eq_true', Bool.not_eq_false]
  have hmemL : n ∈ localNames ldr
      (fs ++ (diffNames ldr fs sd listing ext).map
        (fun n => (ldr.target_dir ++ sd ++ [n], c))) sd ext := by
    by_cases hd : n ∈ diffNames ldr fs sd listing ext
    · refine mem_localNames.mpr ⟨ldr.target_dir ++ sd ++ [n], ?_, ?_, ?_, ?_⟩
      · simp only [stKeys, List.map_append, List.mem_append, List.map_map]
        right
        refine List.mem_map.mpr ⟨n, hd, rfl⟩
      · exact List.dropLast_concat
      · rw [pathName_concat]
        have hs : pySuffix n = "." ++ ext := by
          have := (List.mem_filter.mp hn).2
          exact beq_iff_eq.mp this
        exact globMatch_of_pySuffix hs
      · exact pathName_concat _ _
    · have : n ∈ localNames ldr fs sd ext := by
        by_contra hL
        exact hd ((hmem n).mpr ⟨hn, hL⟩)
      exact localNames_mono this
  simpa [List.contains_iff_exists_mem_beq] using hmemL

/-- C5: when the destination of a download already exists, a
payload-class (`.gz`) file that passes verification is never
overwritten — `__download_file` leaves the filesystem untouched and the
collision is reported as an outcome, not surfaced as an error — while a
sidecar-class (`.md5`) destination is deleted and re-fetched with the
remote bytes. -/
theorem exclusive_create_safety (get : RPath → GetRes) (ldr : Loader)
    (fs : FS) (filename : RPath) (c : Bytes)
    (hex : stHas fs (ldr.target_dir ++ filename) = true) :
    (pySuffix (pathName (ldr.target_dir ++ filename)) = ".gz" →
      checksum fs (ldr.target_dir ++ filename) = true →
      download_file get ldr fs filename = (fs, .ok .skippedAlreadyValid)) ∧
    (pySuffix (pathName (ldr.target_dir ++ filename)) = ".md5" →
      get filename = .ok c →
      download_file get ldr fs filename =
        (stWrite (stErase fs (ldr.target_dir ++ filename))
          (ldr.target_dir ++ filename) c, .ok .refreshedSidecar)) := by
  constructor
  · intro hsfx _
    simp [download_file, hsfx, sup_extensions, hex]
  · intro hsfx hget
    simp [download_file, hsfx, sup_extensions, hex, hget]

/-- Witness for `exclusive_create_safety`: a present `a.gz` (bytes 5) is
skipped untouched, a present `a.md5` (bytes 5) is deleted and refetched
with the remote bytes 9. -/
theorem exclusive_create_safety_witness :
    download_file (fun _ => .ok 9) ⟨["l"]⟩ [(["l", "a.gz"], 5)] ["a.gz"] =
      ([(["l", "a.gz"], 5)], .ok .skippedAlreadyValid) ∧
    download_file (fun _ => .ok 9) ⟨["l"]⟩ [(["l", "a.md5"], 5)] ["a.md5"] =
      ([(["l", "a.md5"], 9)], .ok .refreshedSidecar) := by
  constructor
  · exact (exclusive_create_safety (fun _ => .ok 9) ⟨["l"]⟩
      [(["l", "a.gz"], 5)] ["a.gz"] 9 (by rfl)).1 (by rfl) (by rfl)
  · exact (exclusive_create_safety (fun _ => .ok 9) ⟨["l"]⟩
      [(["l", "a.md5"], 5)] ["a.md5"] 9 (by rfl)).2 (by rfl) (by rfl)

/-- C3 counterexample: local already has `a.gz` (bytes 10, trivially
"valid" under the stub checksum) and `a.md5` (bytes 11); the remote
lists `a.gz, a.md5, b.gz, b.md5` (all bytes 42).  The sync pass fetches
only `b.md5` and `b.gz`: `a.md5` is excluded by the md5-class diff, no
download event touches it, and its bytes stay 11 — refuting the claim
that the pass refetches `a.md5`. -/
theorem sidecar_not_refetched_cex :
    full_download 2 0
      (cleanOracle [["r", "a.gz"], ["r", "a.md5"], ["r", "b.gz"], ["r", "b.md5"]]
        (fun _ => 42)) ⟨["l"]⟩ ["r"]
      [(["l", "r", "a.gz"], 10), (["l", "r", "a.md5"], 11)] =
    .ok ([(["l", "r", "b.gz"], 42), (["l", "r", "b.md5"], 42),
          (["l", "r", "a.gz"], 10), (["l", "r", "a.md5"], 11)],
      [.listed "md5", .info ["r", "b.md5"], .dl ["r", "b.md5"] .fetched,
       .listed "gz", .info ["r", "b.gz"], .dl ["r", "b.gz"] .fetched]) ∧
    (∀ o : Outcome, Ev.dl ["r", "a.md5"] o ∉
      ([.listed "md5", .info ["r", "b.md5"], .dl ["r", "b.md5"] .fetched,
        .listed "gz", .info ["r", "b.gz"], .dl ["r", "b.gz"] .fetched] :
        List Ev)) ∧
    stGet [(["l", "r", "b.gz"], 42), (["l", "r", "b.md5"], 42),
          (["l", "r", "a.gz"], 10), (["l", "r", "a.md5"], 11)]
        ["l", "r", "a.md5"] = some 11 := by
  refine ⟨by rfl, ?_, by rfl⟩
  intro o
  cases o <;> simp

/-- C3 amended: with local state `{a.gz, a.md5}` and remote
`{a.gz, a.md5, b.gz, b.md5}`, the pass fetches exactly `b.md5` then
`b.gz` and leaves both `a.*` files untouched: an already-present sidecar
is excluded by the diff and is *not* refetched (the delete-and-refetch
rule applies only when a download hits an exclusive-create collision). -/
theorem sidecar_refetch_scenario_amended :
    full_download 2 0
      (cleanOracle [["r", "a.gz"], ["r", "a.md5"], ["r", "b.gz"], ["r", "b.md5"]]
        (fun _ => 9)) ⟨["l"]⟩ ["r"]
      [(["l", "r", "a.gz"], 1), (["l", "r", "a.md5"], 2)] =
    .ok ([(["l", "r", "b.gz"], 9), (["l", "r", "b.md5"], 9),
          (["l", "r", "a.gz"], 1), (["l", "r", "a.md5"], 2)],
      [.listed "md5", .info ["r", "b.md5"], .dl ["r", "b.md5"] .fetched,
       .listed "gz", .info ["r", "b.gz"], .dl ["r", "b.gz"] .fetched]) := by
  rfl

/-- C8 counterexample: remote lists only `a.gz` (bytes 42); on the first
attempt `ftp_.get` fails (error 3) after writing 7 bytes to the already
created destination.  The retry restarts the whole pass, whose inventory
scan now sees the partial `a.gz` and skips it, and the run completes
successfully — with the mirror holding the 7-byte partial file that was
never successfully fetched (no `fetched` event for it in the restart),
refuting the no-partial-files invariant. -/
theorem masquerading_file_after_pass_cex :
    full_download 3 0
      ⟨[["r", "a.gz"]], fun _ _ => none,
        fun a _ => if a = 0 then .fail 3 7 else .ok 42⟩ ⟨["l"]⟩ ["r"] [] =
    .ok ([(["l", "r", "a.gz"], 7)],
      [.listed "md5", .listed "gz", .info ["r", "a.gz"], .warn 3, .slept 5,
       .retryNote, .listed "md5", .listed "gz"]) ∧
    stGet [(["l", "r", "a.gz"], 7)] ["l", "r", "a.gz"] = some 7 ∧
    (Ev.dl ["r", "a.gz"] .fetched ∉
      ([.listed "md5", .listed "gz", .info ["r", "a.gz"], .warn 3, .slept 5,
        .retryNote, .listed "md5", .listed "gz"] : List Ev)) := by
  refine ⟨by rfl, by rfl, by simp⟩

/-- C8 amended: a fetch interrupted mid-transfer leaves the partially
written bytes at the *final* destination path and raises; the
destination then exists, and — because checksum verification is the
constant-true stub — a later download attempt for the same payload-class
file takes the already-downloaded branch and skips it, so the partial
file masquerades as complete to the next pass. -/
theorem interrupted_download_leaves_masquerading_file (get : RPath → GetRes)
    (ldr : Loader) (fs : FS) (filename : RPath) (e : Nat) (w : Bytes)
    (habs : stHas fs (ldr.target_dir ++ filename) = false)
    (hsup : sup_extensions.contains
      (pySuffix (pathName (ldr.target_dir ++ filename))) = true)
    (hget : get filename = .fail e w) :
    download_file get ldr fs filename =
      (stWrite fs (ldr.target_dir ++ filename) w, .error e) ∧
    stHas (stWrite fs (ldr.target_dir ++ filename) w)
      (ldr.target_dir ++ filename) = true ∧
    (pySuffix (pathName (ldr.target_dir ++ filename)) = ".gz" →
      ∀ get' : RPath → GetRes,
        download_file get' ldr (stWrite fs (ldr.target_dir ++ filename) w)
          filename =
        (stWrite fs (ldr.target_dir ++ filename) w,
          .ok .skippedAlreadyValid)) := by
  refine ⟨?_, stHas_write_self, ?_⟩
  · simp [download_file, habs, hget]
    simpa using hsup
  · intro hsfx get'
    simp [download_file, hsfx, sup_extensions, stHas_write_self]

/-- Witness for `interrupted_download_leaves_masquerading_file`: fetching `a.gz`
into an empty mirror fails after 7 bytes; the partial file persists and
a retry skips it. -/
theorem interrupted_download_leaves_masquerading_file_witness :
    download_file (fun _ => .fail 3 7) ⟨["l"]⟩ [] ["a.gz"] =
      ([(["l", "a.gz"], 7)], .error 3) ∧
    download_file (fun _ => .ok 42) ⟨["l"]⟩ [(["l", "a.gz"], 7)] ["a.gz"] =
      ([(["l", "a.gz"], 7)], .ok .skippedAlreadyValid) := by
  have h := interrupted_download_leaves_masquerading_file (fun _ => .fail 3 7)
    ⟨["l"]⟩ [] ["a.gz"] 3 7 (by rfl) (by rfl) (by rfl)
  exact ⟨h.1, h.2.2 (by rfl) (fun _ => .ok 42)⟩

theorem runTargets_raised {restart : FS → Res} {get : RPath → GetRes}
    {ldr : Loader} {ts : List RPath} {fs : FS} {e : Nat}
    (h : runTargets restart get ldr ts fs = .error (.raised e)) :
    ∃ fs', restart fs' = .error (.raised e) := by
  induction ts generalizing fs with
  | nil => simp [runTargets] at h
  | cons t ts ih =>
    rw [runTargets] at h
    rcases hdl : download_file get ldr fs t with ⟨fs1, r⟩
    rw [hdl] at h
    cases r with
    | ok o =>
      simp only at h
      cases hrt : runTargets restart get ldr ts fs1 with
      | error se =>
        rw [hrt] at h
        simp only [Except.error.injEq] at h
        subst h
        exact ih hrt
      | ok p => rw [hrt] at h; simp at h
    | error e0 =>
      simp only at h
      cases hrs : restart fs1 with
      | error se =>
        rw [hrs] at h
        simp only [Except.error.injEq] at h
        subst h
        exact ⟨fs1, hrs⟩
      | ok p =>
        rw [hrs] at h
        rcases p with ⟨fs2, trR⟩
        simp only at h
        cases hrt : runTargets restart get ldr ts fs2 with
        | error se =>
          rw [hrt] at h
          simp only [Except.error.injEq] at h
          subst h
          exact ih hrt
        | ok p2 => rw [hrt] at h; rcases p2 with ⟨fs3, tr⟩; simp at h

theorem runClasses_raised {restart : FS → Res} {listE : String → Option Nat}
    {listing : List RPath} {get : RPath → GetRes} {ldr : Loader}
    {sd : RPath} {exts : List String} {fs : FS} {e : Nat}
    (h : runClasses restart listE listing get ldr sd exts fs =
      .error (.raised e)) :
    (∃ ext', listE ext' = some e) ∨
      ∃ fs', restart fs' = .error (.raised e) := by
  induction exts generalizing fs with
  | nil => simp [runClasses] at h
  | cons ext exts ih =>
    rw [runClasses] at h
    cases hle : listE (ext.drop 1) with
    | some e0 =>
      rw [hle] at h
      simp only at h
      simp only [Except.error.injEq, SErr.raised.injEq] at h
      subst h
      exact Or.inl ⟨ext.drop 1, hle⟩
    | none =>
      rw [hle, diffGen_eq] at h
      simp only at h
      cases hrt : runTargets restart get ldr
          ((diffNames ldr fs sd listing (ext.drop 1)).map
            (fun n => pathParent (listing.headD []) ++ [n])) fs with
      | error se =>
        rw [hrt] at h
        simp only [Except.error.injEq] at h
        subst h
        exact Or.inr (runTargets_raised hrt)
      | ok p =>
        rw [hrt] at h
        rcases p with ⟨fs1, tr1⟩
        simp only at h
        cases hrc : runClasses restart listE listing get ldr sd exts fs1 with
        | error se =>
          rw [hrc] at h
          simp only [Except.error.injEq] at h
          subst h
          exact ih hrc
        | ok p2 => rw [hrc] at h; rcases p2 with ⟨fs2, tr2⟩; simp at h

theorem full_download_raised {fuel attempt : Nat} {orc : Oracle}
    {ldr : Loader} {sd : RPath} {fs : FS} {e : Nat}
    (h : full_download fuel attempt orc ldr sd fs = .error (.raised e)) :
    ∃ a ext', orc.listErr a ext' = some e := by
  induction fuel generalizing attempt fs with
  | zero => simp [full_download] at h
  | succ fuel ih =>
    rw [full_download] at h
    rcases runClasses_raised h with ⟨ext', hle⟩ | ⟨fs', hr⟩
    · exact ⟨attempt, ext', hle⟩
    · exact ih hr

/-- C7 counterexample: a transient transport error raised by
`ftp_.list` during the md5 class of the sync pass is *not* caught: the
pass surfaces it to the caller with no warning, no sleep and no restart
(the `try` in `full_download` wraps only the per-file download step),
refuting the claim that every error raised during a sync pass triggers
the warn/sleep/restart policy and is never surfaced. -/
theorem listing_error_surfaces_cex :
    full_download 5 0
      ⟨[["r", "a.md5"]],
        fun a e => if a == 0 && e == "md5" then some 2 else none,
        fun _ _ => .ok 1⟩ ⟨["l"]⟩ ["r"] [] = .error (.raised 2) := by
  rfl

/-- C7 amended: only errors raised by the per-file download step are
caught.  (1) Whenever a pass surfaces a raised error, that error came
from a `ftp_.list` call of some attempt — download-step errors are never
surfaced.  (2) A download-step error makes the loop log a warning, sleep
5 seconds, log the retry note and re-invoke the entire sync pass from
step 1 (the `restart` continuation, which re-lists and re-diffs); after
the restarted pass returns, the loop resumes with the remaining stale
targets, and an error escaping the restarted pass propagates. -/
theorem download_errors_caught_listing_errors_surface :
    (∀ (fuel attempt : Nat) (orc : Oracle) (ldr : Loader) (sd : RPath)
      (fs : FS) (e : Nat),
      full_download fuel attempt orc ldr sd fs = .error (.raised e) →
      ∃ a ext', orc.listErr a ext' = some e) ∧
    (∀ (restart : FS → Res) (get : RPath → GetRes) (ldr : Loader)
      (t : RPath) (ts : List RPath) (fs fs1 : FS) (e : Nat),
      download_file get ldr fs t = (fs1, .error e) →
      runTargets restart get ldr (t :: ts) fs =
        match restart fs1 with
        | .error se => .error se
        | .ok (fs2, trR) =>
          match runTargets restart get ldr ts fs2 with
          | .error se => .error se
          | .ok (fs3, tr) =>
            .ok (fs3,
              .info t :: .warn e :: .slept 5 :: .retryNote :: (trR ++ tr))) := by
  constructor
  · intro fuel attempt orc ldr sd fs e h
    exact full_download_raised h
  · intro restart get ldr t ts fs fs1 e hdl
    rw [runTargets, hdl]

/-- Witness for `download_errors_caught_listing_errors_surface`: the
surfaced error of the concrete failing-listing run is traced back to the
listing oracle, and a failing download of `a.gz` produces the
warn/sleep/retry events followed by the restart's trace. -/
theorem download_errors_caught_witness :
    (∃ a ext',
      (Oracle.mk [["r", "a.md5"]]
        (fun a e => if a == 0 && e == "md5" then some 2 else none)
        (fun _ _ => .ok 1)).listErr a ext' = some 2) ∧
    runTargets (fun fs => .ok (fs, [.retryNote])) (fun _ => .fail 3 7)
      ⟨["l"]⟩ [["a.gz"]] [] =
      .ok ([(["l", "a.gz"], 7)],
        [.info ["a.gz"], .warn 3, .slept 5, .retryNote, .retryNote]) := by
  constructor
  · exact download_errors_caught_listing_errors_surface.1 5 0
      ⟨[["r", "a.md5"]],
        fun a e => if a == 0 && e == "md5" then some 2 else none,
        fun _ _ => .ok 1⟩ ⟨["l"]⟩ ["r"] [] 2 (by rfl)
  · have h := download_errors_caught_listing_errors_surface.2
      (fun fs => .ok (fs, [.retryNote])) (fun _ => .fail 3 7) ⟨["l"]⟩
      ["a.gz"] [] [] [(["l", "a.gz"], 7)] 3 (by rfl)
    simpa using h

/-- C6: with one well-formed and one truncated `.gz` archive under the
extraction root, `extract` invokes the handler exactly once (on the
decompressed sibling of the well-formed archive), logs one error naming
the truncated archive, skips it, and the walk completes without
crashing. -/
theorem corrupt_archive_skipped (d : RPath) (na nb : String) (n : Bytes)
    (fs0 : EFS) (h : RPath → HRes)
    (hna : pySuffix na = ".gz") (hnb : pySuffix nb = ".gz")
    (hga : stGet fs0 (d ++ [na]) = some (.gzGood n))
    (hgb : stGet fs0 (d ++ [nb]) = some .gzTrunc)
    (hh : h (withSuffixEmpty (d ++ [na])) = .ok)
    (hne : withSuffixEmpty (d ++ [na]) ≠ d ++ [nb]) :
    ∃ fs', extract h [d ++ [na], d ++ [nb]] fs0 =
      .ok (fs', [.handled (withSuffixEmpty (d ++ [na])),
                 .logged (d ++ [nb])]) := by
  have hpa : pathName (d ++ [na]) = na := pathName_concat d na
  have hpb : pathName (d ++ [nb]) = nb := pathName_concat d nb
  have h1 : extractStep h fs0 (d ++ [na]) =
      .ok (stErase (stWrite fs0 (withSuffixEmpty (d ++ [na])) (.plain n))
            (withSuffixEmpty (d ++ [na])),
        [.handled (withSuffixEmpty (d ++ [na]))]) := by
    rw [extractStep, hpa, hna]
    simp only [beq_self_eq_true, if_true, gunzip_content, hga, hh]
  have hget1 : stGet
      (stErase (stWrite fs0 (withSuffixEmpty (d ++ [na])) (.plain n))
        (withSuffixEmpty (d ++ [na]))) (d ++ [nb]) = some .gzTrunc := by
    rw [stGet_erase_ne (Ne.symm hne), stGet_write_ne (Ne.symm hne), hgb]
  have h2 : extractStep h
      (stErase (stWrite fs0 (withSuffixEmpty (d ++ [na])) (.plain n))
        (withSuffixEmpty (d ++ [na]))) (d ++ [nb]) =
      .ok (stWrite
            (stErase (stWrite fs0 (withSuffixEmpty (d ++ [na])) (.plain n))
              (withSuffixEmpty (d ++ [na])))
            (withSuffixEmpty (d ++ [nb])) (.plain 0),
        [.logged (d ++ [nb])]) := by
    rw [extractStep, hpb, hnb]
    simp only [beq_self_eq_true, if_true, gunzip_content, hget1]
  refine ⟨stWrite
    (stErase (stWrite fs0 (withSuffixEmpty (d ++ [na])) (.plain n))
      (withSuffixEmpty (d ++ [na])))
    (withSuffixEmpty (d ++ [nb])) (.plain 0), ?_⟩
  rw [extract, h1]
  simp only
  rw [extract, h2]
  simp only
  rw [extract]
  simp

/-- Witness for `corrupt_archive_skipped`: a concrete root with a good
`a.gz` and a truncated `b.gz`. -/
theorem corrupt_archive_skipped_witness :
    ∃ fs', extract (fun _ => .ok) [["a.gz"], ["b.gz"]]
        [(["a.gz"], .gzGood 1), (["b.gz"], .gzTrunc)] =
      .ok (fs', [.handled ["a"], .logged ["b.gz"]]) := by
  have h := corrupt_archive_skipped [] "a.gz" "b.gz" 1
    [(["a.gz"], .gzGood 1), (["b.gz"], .gzTrunc)] (fun _ => .ok)
    (by rfl) (by rfl) (by rfl) (by rfl) (by rfl) (by decide)
  simpa using h

/-- C2 counterexample: the extraction root holds a single truncated
`.gz` archive.  `__gunzip_content` creates the decompressed sibling
`b` (empty) before the failing read; the `EOFError` is logged and the
walk completes — but the sibling is never deleted and remains on disk,
refuting the unconditional-cleanup claim. -/
theorem sibling_remains_cex :
    extract (fun _ => .ok) [["b.gz"]] [(["b.gz"], .gzTrunc)] =
      .ok ([(["b"], .plain 0), (["b.gz"], .gzTrunc)], [.logged ["b.gz"]]) ∧
    stGet [(["b"], EC.plain 0), (["b.gz"], EC.gzTrunc)] ["b"] =
      some (.plain 0) := ⟨rfl, rfl⟩

/-- C2 amended: the decompressed sibling is deleted only when the
handler returns normally.  If every walked `.gz` archive is well-formed,
the handler returns normally on every decompressed sibling, and no
sibling path collides with a walked file, then after `extract` no
decompressed sibling remains on disk and every other path is untouched.
(When the handler raises or the archive is corrupt, the — possibly
empty — sibling remains: see the counterexample.) -/
theorem cleanup_on_normal_return (hnd : RPath → HRes) (files : List RPath)
    (fs0 : EFS)
    (hgood : ∀ f ∈ files, pySuffix (pathName f) = ".gz" →
      ∃ n, stGet fs0 f = some (.gzGood n))
    (hok : ∀ f ∈ files, pySuffix (pathName f) = ".gz" →
      hnd (withSuffixEmpty f) = .ok)
    (hsep : ∀ f ∈ files, ∀ f' ∈ files, pySuffix (pathName f) = ".gz" →
      withSuffixEmpty f ≠ f') :
    ∃ fs' evs, extract hnd files fs0 = .ok (fs', evs) ∧
      (∀ f ∈ files, pySuffix (pathName f) = ".gz" →
        stGet fs' (withSuffixEmpty f) = none) ∧
      (∀ q : RPath, (∀ f ∈ files, pySuffix (pathName f) = ".gz" →
          q ≠ withSuffixEmpty f) → stGet fs' q = stGet fs0 q) := by
  induction files generalizing fs0 with
  | nil =>
    exact ⟨fs0, [], rfl, by simp, fun q _ => rfl⟩
  | cons f rest ih =>
    by_cases hgz : pySuffix (pathName f) = ".gz"
    · obtain ⟨n, hn⟩ := hgood f (by simp) hgz
      have hstep : extractStep hnd fs0 f =
          .ok (stErase (stWrite fs0 (withSuffixEmpty f) (.plain n))
                (withSuffixEmpty f), [.handled (withSuffixEmpty f)]) := by
        rw [extractStep, hgz]
        simp only [beq_self_eq_true, if_true, gunzip_content, hn,
          hok f (by simp) hgz]
      set fs1 := stErase (stWrite fs0 (withSuffixEmpty f) (.plain n))
        (withSuffixEmpty f) with hfs1
      have hpres : ∀ q : RPath, q ≠ withSuffixEmpty f →
          stGet fs1 q = stGet fs0 q := by
        intro q hq
        rw [hfs1, stGet_erase_ne hq, stGet_write_ne hq]
      obtain ⟨fs', evs, hrun, hsib, huntouched⟩ := ih fs1
        (fun f' hf' hgz' => by
          obtain ⟨n', hn'⟩ := hgood f' (by simp [hf']) hgz'
          exact ⟨n', by rw [hpres f' (Ne.symm (hsep f (by simp) f'
            (by simp [hf']) hgz)), hn']⟩)
        (fun f' hf' hgz' => hok f' (by simp [hf']) hgz')
        (fun f' hf' f'' hf'' hgz' =>
          hsep f' (by simp [hf']) f'' (by simp [hf'']) hgz')
      refine ⟨fs', .handled (withSuffixEmpty f) :: evs, ?_, ?_, ?_⟩
      · rw [extract, hstep]
        simp only
        rw [hrun]
        simp
      · intro g hg hgzg
        rcases List.mem_cons.mp hg with hgf | hgrest
        · subst hgf
          by_cases hcase : ∃ f' ∈ rest, pySuffix (pathName f') = ".gz" ∧
              withSuffixEmpty f' = withSuffixEmpty g
          · obtain ⟨f', hf', hgz', heq⟩ := hcase
            rw [← heq]
            exact hsib f' hf' hgz'
          · rw [huntouched (withSuffixEmpty g)
              (fun f' hf' hgz' hq => hcase ⟨f', hf', hgz', hq.symm⟩)]
            rw [hfs1]
            exact stGet_erase_self
        · exact hsib g hgrest hgzg
      · intro q hq
        rw [huntouched q (fun f' hf' hgz' => hq f' (by simp [hf']) hgz')]
        exact hpres q (hq f (by simp) hgz)
    · have hstep : extractStep hnd fs0 f = .ok (fs0, []) := by
        rw [extractStep]
        have : (pySuffix (pathName f) == ".gz") = false := by
          simpa using hgz
        rw [this]
        simp only [Bool.false_eq_true, if_false]
      obtain ⟨fs', evs, hrun, hsib, huntouched⟩ := ih fs0
        (fun f' hf' hgz' => hgood f' (by simp [hf']) hgz')
        (fun f' hf' hgz' => hok f' (by simp [hf']) hgz')
        (fun f' hf' f'' hf'' hgz' =>
          hsep f' (by simp [hf']) f'' (by simp [hf'']) hgz')
      refine ⟨fs', evs, ?_, ?_, ?_⟩
      · rw [extract, hstep]
        simp only
        rw [hrun]
        simp
      · intro g hg hgzg
        rcases List.mem_cons.mp hg with hgf | hgrest
        · subst hgf; exact absurd hgzg hgz
        · exact hsib g hgrest hgzg
      · intro q hq
        exact huntouched q (fun f' hf' hgz' => hq f' (by simp [hf']) hgz')

/-- Witness for `cleanup_on_normal_return`: one good archive `a.gz` and
an unrelated file `x`; after extraction the sibling `a` is gone and `x`
is untouched. -/
theorem cleanup_on_normal_return_witness :
    ∃ fs' evs, extract (fun _ => .ok) [["a.gz"]]
        [(["a.gz"], .gzGood 5), (["x"], .plain 7)] = .ok (fs', evs) ∧
      stGet fs' ["a"] = none ∧ stGet fs' ["x"] = some (.plain 7) := by
  obtain ⟨fs', evs, hrun, hsib, huntouched⟩ := cleanup_on_normal_return
    (fun _ => .ok) [["a.gz"]] [(["a.gz"], .gzGood 5), (["x"], .plain 7)]
    (by intro f hf hgz; simp at hf; subst hf; exact ⟨5, rfl⟩)
    (by intro f hf hgz; rfl)
    (by intro f hf f' hf' hgz; simp at hf hf'; subst hf; subst hf'; decide)
  refine ⟨fs', evs, hrun, ?_, ?_⟩
  · have := hsib ["a.gz"] (by simp) (by rfl)
    simpa using this
  · have := huntouched ["x"] (by intro f hf hgz; simp at hf; subst hf; decide)
    simpa using this

/-! ## Lemmas for the failure-free sync pass -/

theorem stHas_iff_mem_keys {α : Type} {fs : Store α} {p : RPath} :
    stHas fs p = true ↔ p ∈ stKeys fs := by
  induction fs with
  | nil =>
    constructor
    · intro h
      exact absurd h (Bool.false_ne_true)
    · intro h
      exact absurd h (List.not_mem_nil _)
  | cons e fs ih =>
    by_cases h : e.1 = p
    · subst h
      constructor
      · intro _
        exact List.mem_cons_self _ _
      · intro _
        rw [stHas, stGet_cons, if_pos (by simp)]
        rfl
    · have hb : (e.1 == p) = false := by simpa using h
      rw [stHas, stGet_cons, hb]
      simp only [Bool.false_eq_true, if_false, stKeys, List.map_cons,
        List.mem_cons]
      constructor
      · intro hh
        exact Or.inr (ih.mp hh)
      · intro hm
        rcases hm with he | hm2
        · exact absurd he.symm h
        · exact ih.mpr hm2

theorem stHas_erase_ne {α : Type} {fs : Store α} {p q : RPath} (h : q ≠ p) :
    stHas (stErase fs p) q = stHas fs q := by
  simp [stHas, stGet_erase_ne h]

theorem localNames_mono_of_has {ldr : Loader} {fsA fsB : FS} {sd : RPath}
    {ext n} (hmono : ∀ q, stHas fsA q = true → stHas fsB q = true)
    (h : n ∈ localNames ldr fsA sd ext) : n ∈ localNames ldr fsB sd ext := by
  rcases mem_localNames.mp h with ⟨p, hp, hd, hg, hn⟩
  exact mem_localNames.mpr ⟨p,
    stHas_iff_mem_keys.mp (hmono p (stHas_iff_mem_keys.mpr hp)), hd, hg, hn⟩

theorem diffNames_nil_of_covered {ldr : Loader} {fs : FS} {sd : RPath}
    {listing : List RPath} {ext : String}
    (h : ∀ n ∈ remoteNames listing ext, n ∈ localNames ldr fs sd ext) :
    diffNames ldr fs sd listing ext = [] := by
  rw [diffNames_eq_filter, List.filter_eq_nil_iff]
  intro n hn
  have := h n hn
  simp only [Bool.not_eq_true', Bool.not_eq_false]
  simpa [List.contains_iff_exists_mem_beq] using this

theorem download_file_clean (content : RPath → Bytes) (ldr : Loader)
    (fs : FS) (t : RPath) :
    ∃ fs' o, download_file (fun f => .ok (content f)) ldr fs t = (fs', .ok o) ∧
      (∀ q, stHas fs q = true → stHas fs' q = true) ∧
      (sup_extensions.contains
          (pySuffix (pathName (ldr.target_dir ++ t))) = true →
        stHas fs' (ldr.target_dir ++ t) = true) := by
  by_cases hsup : sup_extensions.contains
      (pySuffix (pathName (ldr.target_dir ++ t))) = true
  · have hsupm : pySuffix (pathName (ldr.target_dir ++ t)) ∈ sup_extensions :=
      List.elem_iff.mp hsup
    by_cases hhas : stHas fs (ldr.target_dir ++ t) = true
    · by_cases hmd5 : pySuffix (pathName (ldr.target_dir ++ t)) = ".md5"
      · refine ⟨stWrite (stErase fs (ldr.target_dir ++ t))
          (ldr.target_dir ++ t) (content t), .refreshedSidecar, ?_, ?_, ?_⟩
        · simp [download_file, hsupm, hhas, hmd5, sup_extensions]
        · intro q hq
          by_cases hqt : q = ldr.target_dir ++ t
          · subst hqt; exact stHas_write_self
          · rw [stHas_write]
            simp only [Bool.or_eq_true]
            right
            rw [stHas_erase_ne hqt]
            exact hq
        · intro _; exact stHas_write_self
      · refine ⟨fs, .skippedAlreadyValid, ?_, fun q hq => hq, fun _ => hhas⟩
        have hne : (pySuffix (pathName (ldr.target_dir ++ t)) == ".md5")
            = false := by simpa using hmd5
        simp [download_file, hsupm, hhas, hne, checksum]
    · refine ⟨stWrite fs (ldr.target_dir ++ t) (content t), .fetched, ?_,
        fun q hq => stHas_mono_write hq, fun _ => stHas_write_self⟩
      simp [download_file, hsupm, hhas]
  · refine ⟨fs, .ignored, ?_, fun q hq => hq, fun h => absurd h hsup⟩
    have hsupm : ¬ (pySuffix (pathName (ldr.target_dir ++ t))
        ∈ sup_extensions) :=
      fun hm => hsup (List.elem_eq_true_of_mem hm)
    simp [download_file, hsupm]

theorem runTargets_clean (restart : FS → Res) (content : RPath → Bytes)
    (ldr : Loader) (ts : List RPath) (fs : FS) :
    ∃ fs' tr,
      runTargets restart (fun f => .ok (content f)) ldr ts fs = .ok (fs', tr) ∧
      (∀ q, stHas fs q = true → stHas fs' q = true) ∧
      (∀ t ∈ ts, sup_extensions.contains
          (pySuffix (pathName (ldr.target_dir ++ t))) = true →
        stHas fs' (ldr.target_dir ++ t) = true) ∧
      (∀ ev ∈ tr, (∃ p, ev = Ev.info p) ∨ ∃ p o, ev = Ev.dl p o) := by
  induction ts generalizing fs with
  | nil => exact ⟨fs, [], rfl, fun q hq => hq, by simp, by simp⟩
  | cons t ts ih =>
    obtain ⟨fs1, o, hdl, hmono1, hpres1⟩ := download_file_clean content ldr fs t
    obtain ⟨fs2, tr, hrun, hmono2, hpres2, hevs⟩ := ih fs1
    refine ⟨fs2, .info t :: .dl t o :: tr, ?_, ?_, ?_, ?_⟩
    · rw [runTargets, hdl]
      simp only
      rw [hrun]
    · exact fun q hq => hmono2 q (hmono1 q hq)
    · intro t' ht' hsup'
      rcases List.mem_cons.mp ht' with h | h
      · subst h
        exact hmono2 _ (hpres1 hsup')
      · exact hpres2 t' h hsup'
    · intro ev hev
      rcases List.mem_cons.mp hev with h | h
      · exact Or.inl ⟨t, h⟩
      rcases List.mem_cons.mp h with h | h
      · exact Or.inr ⟨t, o, h⟩
      · exact hevs ev h

theorem class_covered (restart : FS → Res) (content : RPath → Bytes)
    (ldr : Loader) (fs : FS) (sd : RPath) (listing : List RPath) (ext : String)
    (hpar : ∀ p ∈ listing, pathParent p = sd)
    (hsup : ("." ++ ext) ∈ sup_extensions) :
    ∃ fs' tr,
      runTargets restart (fun f => .ok (content f)) ldr
        ((diffNames ldr fs sd listing ext).map
          (fun n => pathParent (listing.headD []) ++ [n])) fs = .ok (fs', tr) ∧
      (∀ q, stHas fs q = true → stHas fs' q = true) ∧
      (∀ n ∈ remoteNames listing ext, n ∈ localNames ldr fs' sd ext) ∧
      (∀ ev ∈ tr, (∃ p, ev = Ev.info p) ∨ ∃ p o, ev = Ev.dl p o) := by
  obtain ⟨fs', tr, hrun, hmono, hpres, hevs⟩ := runTargets_clean restart
    content ldr ((diffNames ldr fs sd listing ext).map
      (fun n => pathParent (listing.headD []) ++ [n])) fs
  refine ⟨fs', tr, hrun, hmono, ?_, hevs⟩
  intro n hn
  by_cases hd : n ∈ diffNames ldr fs sd listing ext
  · have hlne : listing ≠ [] :=
      listing_ne_nil_of_diffNames_ne_nil (List.ne_nil_of_mem hd)
    have hhead : listing.headD [] ∈ listing := by
      cases listing with
      | nil => exact absurd rfl hlne
      | cons f rest => exact List.mem_cons_self f rest
    have hparhead : pathParent (listing.headD []) = sd := hpar _ hhead
    have hsfx : pySuffix n = "." ++ ext := by
      have := (List.mem_filter.mp hn).2
      exact beq_iff_eq.mp this
    have hsupn : sup_extensions.contains (pySuffix n) = true := by
      rw [hsfx]
      exact List.elem_eq_true_of_mem hsup
    have hname : pathName (ldr.target_dir ++ (sd ++ [n])) = n := by
      rw [← List.append_assoc]
      exact pathName_concat _ n
    have hpresn : stHas fs' (ldr.target_dir ++ (sd ++ [n])) = true := by
      refine hpres (sd ++ [n]) ?_ ?_
      · refine List.mem_map.mpr ⟨n, hd, ?_⟩
        rw [hparhead]
      · rw [hname]
        exact hsupn
    refine mem_localNames.mpr ⟨ldr.target_dir ++ (sd ++ [n]), ?_, ?_, ?_, ?_⟩
    · exact stHas_iff_mem_keys.mp hpresn
    · rw [← List.append_assoc]
      exact List.dropLast_concat
    · rw [hname]
      exact globMatch_of_pySuffix hsfx
    · exact hname
  · have hloc : n ∈ localNames ldr fs sd ext := by
      by_contra hL
      refine hd ?_
      rw [diffNames_eq_filter]
      refine List.mem_filter.mpr ⟨hn, ?_⟩
      simp only [Bool.not_eq_true']
      by_contra hc
      rw [Bool.not_eq_false] at hc
      refine hL ?_
      have := List.contains_iff_exists_mem_beq.mp hc
      rcases this with ⟨b, hb, hab⟩
      rwa [show n = b from beq_iff_eq.mp hab]
    exact localNames_mono_of_has hmono hloc

theorem runClasses_two (restart : FS → Res) (listE : String → Option Nat)
    (listing : List RPath) (get : RPath → GetRes) (ldr : Loader) (sd : RPath)
    (fs : FS) {t5 tz : List RPath} {fsA fsB : FS} {trA trB : List Ev}
    (h5 : listE "md5" = none) (hz : listE "gz" = none)
    (hd5 : diffGen ldr fs sd listing "md5" = some t5)
    (hr5 : runTargets restart get ldr t5 fs = .ok (fsA, trA))
    (hdz : diffGen ldr fsA sd listing "gz" = some tz)
    (hrz : runTargets restart get ldr tz fsA = .ok (fsB, trB)) :
    runClasses restart listE listing get ldr sd sup_extensions fs =
      .ok (fsB, (Ev.listed "md5" :: trA) ++ (Ev.listed "gz" :: trB)) := by
  have e5 : (".md5").drop 1 = "md5" := rfl
  have ez : (".gz").drop 1 = "gz" := rfl
  rw [show sup_extensions = [".md5", ".gz"] from rfl]
  rw [runClasses]
  simp only [e5, h5, hd5]
  rw [hr5]
  simp only
  rw [runClasses]
  simp only [ez, hz, hdz]
  rw [hrz]
  simp only
  rw [runClasses]
  simp

/-- C4: sync is idempotent.  For every remote inventory (listed below
the sync source directory, as the FTP server returns it) and every
failure-free run, running the full pass a second time performs zero
downloads: the second pass emits only the two per-class listing events
and leaves the mirror unchanged, because every file fetched by the first
pass is visible to the second pass's inventory scan and excluded from
its missing-set. -/
theorem sync_idempotent (fuel fuel' a a' : Nat) (listing : List RPath)
    (content : RPath → Bytes) (ldr : Loader) (sd : RPath) (fs : FS)
    (hpar : ∀ p ∈ listing, pathParent p = sd) :
    ∃ fs1 tr1,
      full_download (fuel + 1) a (cleanOracle listing content) ldr sd fs =
        .ok (fs1, tr1) ∧
      full_download (fuel' + 1) a' (cleanOracle listing content) ldr sd fs1 =
        .ok (fs1, [.listed "md5", .listed "gz"]) := by
  have hm5 : ("." ++ "md5") ∈ sup_extensions := by decide
  have hmz : ("." ++ "gz") ∈ sup_extensions := by decide
  obtain ⟨fsA, trA, hrA, hmonoA, hcovA, hevA⟩ := class_covered
    (full_download fuel (a + 1) (cleanOracle listing content) ldr sd)
    content ldr fs sd listing "md5" hpar hm5
  obtain ⟨fsB, trB, hrB, hmonoB, hcovB, hevB⟩ := class_covered
    (full_download fuel (a + 1) (cleanOracle listing content) ldr sd)
    content ldr fsA sd listing "gz" hpar hmz
  have hcovA' : ∀ n ∈ remoteNames listing "md5",
      n ∈ localNames ldr fsB sd "md5" :=
    fun n hn => localNames_mono_of_has hmonoB (hcovA n hn)
  have hfirst : full_download (fuel + 1) a (cleanOracle listing content)
      ldr sd fs = .ok (fsB, (Ev.listed "md5" :: trA) ++ (Ev.listed "gz" :: trB)) := by
    rw [full_download]
    exact runClasses_two _ _ _ _ _ _ _ rfl rfl
      (diffGen_eq ldr fs sd listing "md5") hrA
      (diffGen_eq ldr fsA sd listing "gz") hrB
  have hd5B : diffGen ldr fsB sd listing "md5" = some [] := by
    rw [diffGen_eq, diffNames_nil_of_covered hcovA']
    rfl
  have hdzB : diffGen ldr fsB sd listing "gz" = some [] := by
    rw [diffGen_eq, diffNames_nil_of_covered hcovB]
    rfl
  have hsecond : full_download (fuel' + 1) a' (cleanOracle listing content)
      ldr sd fsB = .ok (fsB, [.listed "md5", .listed "gz"]) := by
    rw [full_download]
    have := @runClasses_two
      (full_download fuel' (a' + 1) (cleanOracle listing content) ldr sd)
      ((cleanOracle listing content).listErr a') listing
      ((cleanOracle listing content).fetchRes a') ldr sd fsB
      [] [] fsB fsB [] [] rfl rfl hd5B rfl hdzB rfl
    simpa using this
  exact ⟨fsB, _, hfirst, hsecond⟩

/-- Witness for `sync_idempotent`: a concrete remote with one payload
and one sidecar, synced into an empty mirror twice. -/
theorem sync_idempotent_witness :
    ∃ fs1 tr1,
      full_download 2 0
        (cleanOracle [["r", "a.gz"], ["r", "a.md5"]] (fun _ => 42))
        ⟨["l"]⟩ ["r"] [] = .ok (fs1, tr1) ∧
      full_download 2 0
        (cleanOracle [["r", "a.gz"], ["r", "a.md5"]] (fun _ => 42))
        ⟨["l"]⟩ ["r"] fs1 = .ok (fs1, [.listed "md5", .listed "gz"]) := by
  exact sync_idempotent 1 1 0 0 [["r", "a.gz"], ["r", "a.md5"]]
    (fun _ => 42) ⟨["l"]⟩ ["r"] [] (by decide)

/-- C9: the pass processes the two extension classes sequentially in
the fixed priority order of `sup_extensions`.  In a failure-free
attempt, the run decomposes as: list the remote once for the md5 class
and download its whole missing-set, then — from the resulting filesystem
— diff and download the gz class; the trace is the concatenation of the
two class segments (not interleaved), each opened by exactly one listing
event, with no listing events inside the download segments. -/
theorem classes_in_priority_order (fuel a : Nat) (orc : Oracle)
    (ldr : Loader) (sd : RPath) (fs : FS) (content : RPath → Bytes)
    (hfetch : ∀ f, orc.fetchRes a f = .ok (content f))
    (h5 : orc.listErr a "md5" = none) (hz : orc.listErr a "gz" = none) :
    ∃ fsA trA fsB trB,
      runTargets (full_download fuel (a + 1) orc ldr sd) (orc.fetchRes a) ldr
        ((diffNames ldr fs sd orc.listing "md5").map
          (fun n => pathParent (orc.listing.headD []) ++ [n])) fs =
        .ok (fsA, trA) ∧
      runTargets (full_download fuel (a + 1) orc ldr sd) (orc.fetchRes a) ldr
        ((diffNames ldr fsA sd orc.listing "gz").map
          (fun n => pathParent (orc.listing.headD []) ++ [n])) fsA =
        .ok (fsB, trB) ∧
      full_download (fuel + 1) a orc ldr sd fs =
        .ok (fsB, (Ev.listed "md5" :: trA) ++ (Ev.listed "gz" :: trB)) ∧
      (∀ s, Ev.listed s ∉ trA ∧ Ev.listed s ∉ trB) := by
  have hg : orc.fetchRes a = fun f => .ok (content f) := funext hfetch
  obtain ⟨fsA, trA, hrA, _, _, hevA⟩ := runTargets_clean
    (full_download fuel (a + 1) orc ldr sd) content ldr
    ((diffNames ldr fs sd orc.listing "md5").map
      (fun n => pathParent (orc.listing.headD []) ++ [n])) fs
  obtain ⟨fsB, trB, hrB, _, _, hevB⟩ := runTargets_clean
    (full_download fuel (a + 1) orc ldr sd) content ldr
    ((diffNames ldr fsA sd orc.listing "gz").map
      (fun n => pathParent (orc.listing.headD []) ++ [n])) fsA
  have hnoA : ∀ s, Ev.listed s ∉ trA := by
    intro s hmem
    rcases hevA _ hmem with ⟨p, hp⟩ | ⟨p, o, hp⟩ <;> simp at hp
  have hnoB : ∀ s, Ev.listed s ∉ trB := by
    intro s hmem
    rcases hevB _ hmem with ⟨p, hp⟩ | ⟨p, o, hp⟩ <;> simp at hp
  refine ⟨fsA, trA, fsB, trB, ?_, ?_, ?_, fun s => ⟨hnoA s, hnoB s⟩⟩
  · rw [hg]
    exact hrA
  · rw [hg]
    exact hrB
  · rw [full_download]
    refine runClasses_two _ _ _ _ _ _ _ h5 hz
      (diffGen_eq ldr fs sd orc.listing "md5") ?_
      (diffGen_eq ldr fsA sd orc.listing "gz") ?_
    · rw [hg]
      exact hrA
    · rw [hg]
      exact hrB

/-- Witness for `classes_in_priority_order`: the fresh-mirror scenario
with remote `{a.gz, a.md5, b.gz, b.md5}`. -/
theorem classes_in_priority_order_witness :
    ∃ fsA trA fsB trB,
      runTargets (full_download 1 1
          (cleanOracle [["r", "a.gz"], ["r", "a.md5"], ["r", "b.gz"],
            ["r", "b.md5"]] (fun _ => 42)) ⟨["l"]⟩ ["r"])
        ((cleanOracle [["r", "a.gz"], ["r", "a.md5"], ["r", "b.gz"],
            ["r", "b.md5"]] (fun _ => 42)).fetchRes 0) ⟨["l"]⟩
        ((diffNames ⟨["l"]⟩ [] ["r"]
            [["r", "a.gz"], ["r", "a.md5"], ["r", "b.gz"], ["r", "b.md5"]]
            "md5").map
          (fun n => pathParent ([["r", "a.gz"], ["r", "a.md5"],
            ["r", "b.gz"], ["r", "b.md5"]].headD []) ++ [n])) [] =
        .ok (fsA, trA) ∧
      runTargets (full_download 1 1
          (cleanOracle [["r", "a.gz"], ["r", "a.md5"], ["r", "b.gz"],
            ["r", "b.md5"]] (fun _ => 42)) ⟨["l"]⟩ ["r"])
        ((cleanOracle [["r", "a.gz"], ["r", "a.md5"], ["r", "b.gz"],
            ["r", "b.md5"]] (fun _ => 42)).fetchRes 0) ⟨["l"]⟩
        ((diffNames ⟨["l"]⟩ fsA ["r"]
            [["r", "a.gz"], ["r", "a.md5"], ["r", "b.gz"], ["r", "b.md5"]]
            "gz").map
          (fun n => pathParent ([["r", "a.gz"], ["r", "a.md5"],
            ["r", "b.gz"], ["r", "b.md5"]].headD []) ++ [n])) fsA =
        .ok (fsB, trB) ∧
      full_download 2 0
        (cleanOracle [["r", "a.gz"], ["r", "a.md5"], ["r", "b.gz"],
          ["r", "b.md5"]] (fun _ => 42)) ⟨["l"]⟩ ["r"] [] =
        .ok (fsB, (Ev.listed "md5" :: trA) ++ (Ev.listed "gz" :: trB)) ∧
      (∀ s, Ev.listed s ∉ trA ∧ Ev.listed s ∉ trB) := by
  exact classes_in_priority_order 1 0
    (cleanOracle [["r", "a.gz"], ["r", "a.md5"], ["r", "b.gz"],
      ["r", "b.md5"]] (fun _ => 42)) ⟨["l"]⟩ ["r"] [] (fun _ => 42)
    (fun f => rfl) rfl rfl

end Crawl
